import Mathlib

/-!
Verification of the mgen C runtime support layer (container, slice and
memory-lifecycle primitives) against its natural-language specification.

Each C function is shallowly embedded as an executable Lean definition:
machine `size_t`/`int` values are modelled as `Nat`/`Int` (with explicit
wraparound where a cast matters), heap pointers as abstract `Nat`
identifiers (`0` = `NULL`), fallible allocation as an explicit `allocOk`
oracle argument, and the process-wide error context as its `code` field
(`mgen_error_t`), threaded through the functions that can read or write it.
-/

/-- `mgen_error_t` from `mgen_error_handling.h`: error codes matching common
Python exceptions. -/
inductive mgen_error_t where
  | MGEN_OK
  | MGEN_ERROR_GENERIC
  | MGEN_ERROR_MEMORY
  | MGEN_ERROR_INDEX
  | MGEN_ERROR_KEY
  | MGEN_ERROR_VALUE
  | MGEN_ERROR_TYPE
  | MGEN_ERROR_IO
  | MGEN_ERROR_FILE_NOT_FOUND
  | MGEN_ERROR_PERMISSION
  | MGEN_ERROR_RUNTIME
deriving DecidableEq, Repr

/-- `mgen_python_slice_t` from `mgen_python_ops.h`: a Python slice triple
with presence flags (`has_*` are C `int` flags, modelled as `Bool`). -/
structure mgen_python_slice_t where
  start : Int
  stop : Int
  step : Int
  has_start : Bool
  has_stop : Bool
  has_step : Bool
deriving DecidableEq, Repr

/-- `mgen_normalized_slice_t` from `mgen_python_ops.h`: all fields `size_t`. -/
structure mgen_normalized_slice_t where
  start : Nat
  stop : Nat
  step : Nat
  length : Nat
deriving DecidableEq, Repr

/-- The C cast `(size_t)x` of a signed value, with 64-bit `size_t`. -/
def toSizeT (x : Int) : Nat := (x % (2 ^ 64 : Int)).toNat

/-- `mgen_normalize_python_slice` from `mgen_python_ops.c` (lines 269-309).
`seq_len` is a `size_t`; the function casts it to `int` at each use, which is
value-preserving for `seq_len < 2^31` (all theorems below stay in that
range), so the cast is modelled as the `Int` coercion.  The `!slice ||
!result` guard (ValueError) concerns NULL argument pointers and is outside
the claims, which pass live arguments. -/
def mgen_normalize_python_slice (slice : mgen_python_slice_t) (seq_len : Nat) :
    mgen_error_t × Option mgen_normalized_slice_t :=
  if slice.has_step ∧ slice.step = 0 then
    (.MGEN_ERROR_VALUE, none)
  else
    let step : Int := if slice.has_step then slice.step else 1
    let rstep : Nat := step.natAbs
    -- normalize start
    let start0 : Int :=
      if slice.has_start then slice.start
      else if step > 0 then 0 else (seq_len : Int) - 1
    let start1 : Int := if start0 < 0 then start0 + (seq_len : Int) else start0
    let start2 : Int := if start1 < 0 then (if step > 0 then 0 else -1) else start1
    let start3 : Int :=
      if start2 ≥ (seq_len : Int) then
        (if step > 0 then (seq_len : Int) else (seq_len : Int) - 1)
      else start2
    let rstart : Nat := toSizeT start3
    -- normalize stop
    let stop0 : Int :=
      if slice.has_stop then slice.stop
      else if step > 0 then (seq_len : Int) else -1
    let stop1 : Int := if stop0 < 0 then stop0 + (seq_len : Int) else stop0
    let stop2 : Int := if stop1 < 0 then (if step > 0 then 0 else -1) else stop1
    let stop3 : Int :=
      if stop2 ≥ (seq_len : Int) then
        (if step > 0 then (seq_len : Int) else (seq_len : Int) - 1)
      else stop2
    let rstop : Nat := toSizeT stop3
    -- calculate length (size_t arithmetic)
    let rlength : Nat :=
      if step > 0 then
        if rstart < rstop then (rstop - rstart + rstep - 1) / rstep else 0
      else
        if rstart > rstop then (rstart - rstop + rstep - 1) / rstep else 0
    (.MGEN_OK, some ⟨rstart, rstop, rstep, rlength⟩)

/-- `mgen_dyn_array_t` from `mgen_containers_fallback.h`: generic growable
array.  The `size` field always equals the number of stored elements, so the
model carries the stored elements as a list (`size` = `elems.length`) next
to the `capacity` field; element bytes (`element_size`) are abstracted into
one value per element. -/
structure mgen_dyn_array_t where
  elems : List Int
  capacity : Nat
deriving DecidableEq, Repr

/-- `MGEN_DYN_ARRAY_GROWTH_FACTOR` from `mgen_containers_fallback.c` line 16:
`(cap) + (cap) / 2`. -/
def MGEN_DYN_ARRAY_GROWTH_FACTOR (cap : Nat) : Nat := cap + cap / 2

/-- `mgen_dyn_array_reserve` (lines 57-76).  `allocOk` tells whether the
`realloc` call succeeds; on failure the array is untouched and a
MemoryError is returned.  The `!array` guard concerns a NULL array pointer
and is not reachable from the claims, which pass live arrays. -/
def mgen_dyn_array_reserve (allocOk : Bool) (array : mgen_dyn_array_t)
    (new_capacity : Nat) : mgen_error_t × mgen_dyn_array_t :=
  if new_capacity ≤ array.capacity then (.MGEN_OK, array)
  else if allocOk then (.MGEN_OK, { array with capacity := new_capacity })
  else (.MGEN_ERROR_MEMORY, array)

/-- `mgen_dyn_array_append` (lines 78-108): grows by
`MGEN_DYN_ARRAY_GROWTH_FACTOR` with a `+ 1` floor when that does not
increase the capacity, then stores the element at the end and increments
`size`. -/
def mgen_dyn_array_append (allocOk : Bool) (array : mgen_dyn_array_t)
    (element : Int) : mgen_error_t × mgen_dyn_array_t :=
  if array.elems.length ≥ array.capacity then
    let new_capacity := MGEN_DYN_ARRAY_GROWTH_FACTOR array.capacity
    let new_capacity :=
      if new_capacity ≤ array.capacity then array.capacity + 1 else new_capacity
    match mgen_dyn_array_reserve allocOk array new_capacity with
    | (.MGEN_OK, array2) => (.MGEN_OK, { array2 with elems := array2.elems ++ [element] })
    | (e, array2) => (e, array2)
  else
    (.MGEN_OK, { array with elems := array.elems ++ [element] })

/-- `mgen_dyn_array_insert` (lines 110-149): bounds-checks the index, grows
by `MGEN_DYN_ARRAY_GROWTH_FACTOR` (note: without the `+ 1` floor used by
`append`), then shifts the tail and stores the element.  When the computed
new capacity is `≤ capacity`, `reserve` is a no-op that returns `MGEN_OK`,
and the element is stored anyway (in C this writes past the buffer). -/
def mgen_dyn_array_insert (allocOk : Bool) (array : mgen_dyn_array_t)
    (index : Nat) (element : Int) : mgen_error_t × mgen_dyn_array_t :=
  if index > array.elems.length then (.MGEN_ERROR_INDEX, array)
  else if array.elems.length ≥ array.capacity then
    let new_capacity := MGEN_DYN_ARRAY_GROWTH_FACTOR array.capacity
    match mgen_dyn_array_reserve allocOk array new_capacity with
    | (.MGEN_OK, array2) =>
        (.MGEN_OK, { array2 with
                      elems := array2.elems.take index ++ element :: array2.elems.drop index })
    | (e, array2) => (e, array2)
  else
    (.MGEN_OK, { array with
                  elems := array.elems.take index ++ element :: array.elems.drop index })

/-- `mgen_dyn_array_size` (lines 210-212): `array ? array->size : 0`.
Takes the array pointer (`none` = NULL) and the error-context code, which
the C body never touches. -/
def mgen_dyn_array_size (array : Option mgen_dyn_array_t) (err : mgen_error_t) :
    Nat × mgen_error_t :=
  match array with
  | none => (0, err)
  | some a => (a.elems.length, err)

/-- `mgen_dyn_array_capacity` (lines 214-216). -/
def mgen_dyn_array_capacity (array : Option mgen_dyn_array_t) (err : mgen_error_t) :
    Nat × mgen_error_t :=
  match array with
  | none => (0, err)
  | some a => (a.capacity, err)

/-- `mgen_dyn_array_empty` (lines 288-290): `!array || array->size == 0`. -/
def mgen_dyn_array_empty (array : Option mgen_dyn_array_t) (err : mgen_error_t) :
    Bool × mgen_error_t :=
  match array with
  | none => (true, err)
  | some a => (a.elems.length == 0, err)

/-- `mgen_dyn_array_contains` (lines 224-237): byte-equality scan; returns
`false` for a NULL array (or NULL element pointer) without touching the
error context. -/
def mgen_dyn_array_contains (array : Option mgen_dyn_array_t) (element : Int)
    (err : mgen_error_t) : Bool × mgen_error_t :=
  match array with
  | none => (false, err)
  | some a => (a.elems.contains element, err)

/-- `vec_int` from `mgen_vec_int.h`: `{int* data; size_t size; size_t
capacity}`, with the stored elements carried as a list (`size` =
`elems.length`). -/
structure vec_int where
  elems : List Int
  capacity : Nat
deriving DecidableEq, Repr

/-- `vec_int_grow` from `mgen_vec_int.c` (lines 26-36): doubles the capacity
(`GROWTH_FACTOR 2`), or jumps to `DEFAULT_CAPACITY 8` from capacity 0; on
`realloc` failure it sets a MemoryError and returns with the vector
untouched. -/
def vec_int_grow (allocOk : Bool) (vec : vec_int) (err : mgen_error_t) :
    vec_int × mgen_error_t :=
  let new_capacity := if vec.capacity = 0 then 8 else vec.capacity * 2
  if allocOk then ({ vec with capacity := new_capacity }, err)
  else (vec, .MGEN_ERROR_MEMORY)

/-- `vec_int_push` (lines 38-49): grows when full, then stores
`data[size++] = value` unconditionally — the result of `vec_int_grow` is
not checked, so after a failed growth the store still happens and `size`
is still incremented (in C this writes past the buffer). -/
def vec_int_push (allocOk : Bool) (vec : vec_int) (value : Int)
    (err : mgen_error_t) : vec_int × mgen_error_t :=
  if vec.elems.length ≥ vec.capacity then
    let r := vec_int_grow allocOk vec err
    ({ r.1 with elems := r.1.elems ++ [value] }, r.2)
  else
    ({ vec with elems := vec.elems ++ [value] }, err)

/-- `vec_int_size` (lines 65-67): `vec ? vec->size : 0`; never touches the
error context. -/
def vec_int_size (vec : Option vec_int) (err : mgen_error_t) :
    Nat × mgen_error_t :=
  match vec with
  | none => (0, err)
  | some v => (v.elems.length, err)

/-- `vec_int_capacity` (lines 69-71). -/
def vec_int_capacity (vec : Option vec_int) (err : mgen_error_t) :
    Nat × mgen_error_t :=
  match vec with
  | none => (0, err)
  | some v => (v.capacity, err)

/-- `vec_int_empty` (lines 97-99): `!vec || vec->size == 0`. -/
def vec_int_empty (vec : Option vec_int) (err : mgen_error_t) :
    Bool × mgen_error_t :=
  match vec with
  | none => (true, err)
  | some v => (v.elems.length == 0, err)

/-- One bucket chain of `mgen_map_int_int_entry_t` nodes (`{key, value,
next}`), head first. -/
abbrev Chain := List (Int × Int)

/-- `map_int_int` from `mgen_map_int_int.h`: `{buckets, bucket_count,
size}`; `buckets = none` models a NULL bucket array (zero-initialized or
dropped map). -/
structure map_int_int where
  buckets : Option (List Chain)
  bucket_count : Nat
  size : Nat
deriving DecidableEq, Repr

/-- `map_int_int_hash` (lines 15-19): `u = key < 0 ? -key : key` on
`unsigned int`, then `u % bucket_count`; equals `|key| % bucket_count` for
`|key| < 2^31` (all keys in the claims are in that range). -/
def map_int_int_hash (key : Int) (bucket_count : Nat) : Nat :=
  key.natAbs % bucket_count

/-- `map_int_int_init` (lines 47-57) with the `calloc` succeeding: 16 empty
buckets, size 0. -/
def map_int_int_init : map_int_int :=
  ⟨some (List.replicate 16 []), 16, 0⟩

/-- The chain walk of `map_int_int_insert` (lines 79-87): update the first
entry carrying the key, reporting whether one was found. -/
def chainUpdate (key value : Int) : Chain → Bool × Chain
  | [] => (false, [])
  | e :: rest =>
    if e.1 = key then (true, (e.1, value) :: rest)
    else
      let r := chainUpdate key value rest
      (r.1, e :: r.2)

/-- The chain walk of `map_int_int_get` (lines 109-115): value of the first
entry carrying the key. -/
def chainFind (key : Int) : Chain → Option Int
  | [] => none
  | e :: rest => if e.1 = key then some e.2 else chainFind key rest

/-- The chain walk of `map_int_int_contains` (lines 127-133). -/
def chainContainsKey (key : Int) : Chain → Bool
  | [] => false
  | e :: rest => if e.1 = key then true else chainContainsKey key rest

/-- The chain walk of `map_int_int_remove` (lines 146-156): unlink and free
the first entry carrying the key, reporting whether one was found. -/
def chainRemove (key : Int) : Chain → Bool × Chain
  | [] => (false, [])
  | e :: rest =>
    if e.1 = key then (true, rest)
    else
      let r := chainRemove key rest
      (r.1, e :: r.2)

/-- Body of `map_int_int_insert` after the bucket array is available
(lines 76-99): hash the key, walk the chain updating in place, else push a
new entry at the chain head and increment `size`.  `allocOk` tells whether
the `malloc` of a new entry succeeds; on failure the map is untouched and
`false` is returned. -/
def insertIntoBuckets (allocOk : Bool) (bs : List Chain) (bc sz : Nat)
    (key value : Int) : Bool × map_int_int :=
  let index := map_int_int_hash key bc
  let c := bs.getD index []
  let r := chainUpdate key value c
  if r.1 then (false, ⟨some (bs.set index r.2), bc, sz⟩)
  else if allocOk then
    (true, ⟨some (bs.set index ((key, value) :: c)), bc, sz + 1⟩)
  else (false, ⟨some bs, bc, sz⟩)

/-- `map_int_int_insert` (lines 59-100).  A NULL bucket array is lazily
initialized to 16 empty buckets (`calloc` success governed by `allocOk`;
on failure `bucket_count` is set to 0 and `false` returned).  The `!map`
guard concerns a NULL map pointer and is not reachable from the claims,
which operate on live maps. -/
def map_int_int_insert (allocOk : Bool) (map : map_int_int) (key value : Int) :
    Bool × map_int_int :=
  match map.buckets with
  | none =>
    if allocOk then insertIntoBuckets allocOk (List.replicate 16 []) 16 map.size key value
    else (false, ⟨none, 0, map.size⟩)
  | some bs => insertIntoBuckets allocOk bs map.bucket_count map.size key value

/-- `map_int_int_get` (lines 102-118): pointer to the value of the first
matching entry, or NULL; modelled as the found value.  Takes the map
pointer (`none` = NULL). -/
def map_int_int_get (map : Option map_int_int) (key : Int) : Option Int :=
  match map with
  | none => none
  | some m =>
    match m.buckets with
    | none => none
    | some bs => chainFind key (bs.getD (map_int_int_hash key m.bucket_count) [])

/-- The value computed by `map_int_int_contains` on a live map
(lines 121-135). -/
def mapContainsB (m : map_int_int) (key : Int) : Bool :=
  match m.buckets with
  | none => false
  | some bs => chainContainsKey key (bs.getD (map_int_int_hash key m.bucket_count) [])

/-- `map_int_int_contains` (lines 120-136): `false` for a NULL or
uninitialized map; the error context is never touched. -/
def map_int_int_contains (map : Option map_int_int) (key : Int)
    (err : mgen_error_t) : Bool × mgen_error_t :=
  match map with
  | none => (false, err)
  | some m => (mapContainsB m key, err)

/-- `map_int_int_remove` (lines 138-159): unlink the first matching entry
of the key's chain and decrement `size`; `false` (plus a ValueError) on an
uninitialized map, `false` when the key is absent.  The `!map` guard
concerns a NULL map pointer and is not reachable from the claims. -/
def map_int_int_remove (map : map_int_int) (key : Int) : Bool × map_int_int :=
  match map.buckets with
  | none => (false, map)
  | some bs =>
    let index := map_int_int_hash key map.bucket_count
    let r := chainRemove key (bs.getD index [])
    if r.1 then (true, ⟨some (bs.set index r.2), map.bucket_count, map.size - 1⟩)
    else (false, map)

/-- `map_int_int_clear` (lines 169-182): free every chain, keep the bucket
array, zero the size.  The C loop nulls `buckets[i]` for
`i < bucket_count`; every reachable map has `buckets.length =
bucket_count`, so this is mapping every chain to `[]`. -/
def map_int_int_clear (map : map_int_int) : map_int_int :=
  match map.buckets with
  | none => map
  | some bs => ⟨some (bs.map fun _ => []), map.bucket_count, 0⟩

/-- `map_int_int_size` (lines 161-163): `map ? map->size : 0`; never
touches the error context. -/
def map_int_int_size (map : Option map_int_int) (err : mgen_error_t) :
    Nat × mgen_error_t :=
  match map with
  | none => (0, err)
  | some m => (m.size, err)

/-- `map_int_int_empty` (lines 165-167): `!map || map->size == 0`. -/
def map_int_int_empty (map : Option map_int_int) (err : mgen_error_t) :
    Bool × mgen_error_t :=
  match map with
  | none => (true, err)
  | some m => (m.size == 0, err)

/-- `mgen_free` from `mgen_memory_ops.c` (lines 112-124): frees a non-NULL
pointer and nulls it; never touches the error context.  The input is the
pointed-to pointer value (`none` = `*ptr == NULL`); the result is the value
left in `*ptr`, the error-context code after the call, and whether `free`
was invoked.  (The `!ptr` guard for a NULL pointer-to-pointer behaves like
the `none` case.) -/
def mgen_free (ptr : Option Nat) (err : mgen_error_t) :
    Option Nat × mgen_error_t × Bool :=
  match ptr with
  | none => (none, err, false)
  | some _ => (none, err, true)

/-- Result of `mgen_realloc`: the returned pointer (`none` = NULL), the
error-context code after the call, and whether the old block was
released. -/
structure ReallocResult where
  ret : Option Nat
  err : mgen_error_t
  freedOld : Bool
deriving DecidableEq, Repr

/-- `mgen_realloc` (lines 56-78): `new_size == 0` frees the pointer via
`mgen_free` and returns NULL without recording any error; otherwise the
`realloc` (success governed by `allocOk`) either returns the block
(identity abstracted: the block may move) or reports a MemoryError. -/
def mgen_realloc (allocOk : Bool) (ptr : Option Nat) (new_size : Nat)
    (err : mgen_error_t) : ReallocResult :=
  if new_size = 0 then
    match ptr with
    | some p =>
      let fr := mgen_free (some p) err
      { ret := none, err := fr.2.1, freedOld := fr.2.2 }
    | none => { ret := none, err := err, freedOld := false }
  else if allocOk then
    { ret := some (ptr.getD 1), err := err, freedOld := false }
  else
    { ret := none, err := .MGEN_ERROR_MEMORY, freedOld := false }

/-- `struct mgen_memory_pool` (lines 13-18): `{data, size, capacity,
used}`, where `data` is the storage block, carried as an abstract block
identity. -/
structure mgen_memory_pool_t where
  data : Nat
  size : Nat
  capacity : Nat
  used : Nat
deriving DecidableEq, Repr

/-- The size alignment of `mgen_memory_pool_alloc` (line 213):
`(size + sizeof(void*) - 1) & ~(sizeof(void*) - 1)` with 8-byte pointers,
i.e. rounding up to a multiple of 8. -/
def mgen_pool_align (size : Nat) : Nat := (size + 8 - 1) / 8 * 8

/-- The growth loop of `mgen_memory_pool_alloc` (lines 217-220): starting
from `cap`, double while below `need`.  The `0 < cap` guard reflects that
every pool built by `mgen_memory_pool_new` has a positive capacity (the C
loop would not terminate from capacity 0). -/
def poolGrowCapacity (cap need : Nat) : Nat :=
  if h : 0 < cap ∧ cap < need then poolGrowCapacity (cap * 2) need else cap
termination_by need - cap
decreasing_by omega

/-- `mgen_memory_pool_alloc` (lines 206-237): align the request, grow the
storage by repeated doubling from `capacity * 2` when the request exceeds
the remaining room (`realloc` success governed by `allocOk`; on failure a
MemoryError is set and the pool untouched), then bump-allocate.  The
returned flag tells whether a (non-NULL) pointer was produced; the block
identity is kept since a bump allocation reuses the same storage.  The
`!pool` guard concerns a NULL pool pointer and is not reachable from the
claims. -/
def mgen_memory_pool_alloc (allocOk : Bool) (pool : mgen_memory_pool_t)
    (size : Nat) : mgen_memory_pool_t × Bool :=
  let s := mgen_pool_align size
  if pool.used + s > pool.capacity then
    let new_capacity := poolGrowCapacity (pool.capacity * 2) (pool.used + s)
    if allocOk then
      ({ pool with capacity := new_capacity,
                   used := pool.used + s, size := pool.size + 1 }, true)
    else (pool, false)
  else
    ({ pool with used := pool.used + s, size := pool.size + 1 }, true)

/-- `mgen_memory_pool_reset` (lines 239-244): rewind `used` (and the
allocation counter `size`) to 0; `data` and `capacity` are untouched. -/
def mgen_memory_pool_reset (pool : mgen_memory_pool_t) : mgen_memory_pool_t :=
  { pool with used := 0, size := 0 }

/-- `struct mgen_scope_allocator` (lines 20-29): a linked list of
registered pointers (most recently registered first) plus a count.
Pointers are abstract `Nat` identifiers with `0` = NULL. -/
structure mgen_scope_allocator_t where
  head : List Nat
  count : Nat
deriving DecidableEq, Repr

/-- `mgen_scope_new` (lines 254-265) with the `malloc` succeeding. -/
def mgen_scope_new : mgen_scope_allocator_t := ⟨[], 0⟩

/-- `mgen_scope_register` (lines 284-307): reject a NULL pointer, else
prepend an entry and bump the count.  The bookkeeping-node `malloc` is
assumed to succeed (the claim speaks of pointers that have been
registered); the `!scope` guard concerns a NULL scope pointer and is not
reachable from the claims. -/
def mgen_scope_register (scope : mgen_scope_allocator_t) (ptr : Nat) :
    mgen_error_t × mgen_scope_allocator_t :=
  if ptr = 0 then (.MGEN_ERROR_VALUE, scope)
  else (.MGEN_OK, ⟨ptr :: scope.head, scope.count + 1⟩)

/-- `mgen_scope_free` (lines 309-321): walk the entry list once, calling
`mgen_free` on each registered pointer and freeing the node; the result is
the sequence of pointers released, in traversal order. -/
def mgen_scope_free (scope : mgen_scope_allocator_t) : List Nat := scope.head

/-- `mgen_refcounted_t` (header) as used by lines 352-390: reference count
(a C `int`) plus whether a destructor callback was supplied; the inline
payload is abstracted away. -/
structure mgen_refcounted_t where
  refcount : Int
  has_destructor : Bool
deriving DecidableEq, Repr

/-- `mgen_refcounted_new` (lines 352-363) with the `malloc` succeeding:
count 1, destructor stored. -/
def mgen_refcounted_new (has_destructor : Bool) : mgen_refcounted_t :=
  ⟨1, has_destructor⟩

/-- `mgen_refcounted_retain` (lines 365-370): increment and return the same
cell; NULL is passed through. -/
def mgen_refcounted_retain (obj : Option mgen_refcounted_t) :
    Option mgen_refcounted_t :=
  match obj with
  | none => none
  | some o => some ⟨o.refcount + 1, o.has_destructor⟩

/-- `mgen_refcounted_release` (lines 372-382): decrement; when the count
reaches `≤ 0`, invoke the destructor (if one was supplied) and free the
cell.  The result is the cell after the call (`none` = freed) and whether
the destructor was invoked during this call. -/
def mgen_refcounted_release (obj : Option mgen_refcounted_t) :
    Option mgen_refcounted_t × Bool :=
  match obj with
  | none => (none, false)
  | some o =>
    let rc := o.refcount - 1
    if rc ≤ 0 then (none, o.has_destructor)
    else (some ⟨rc, o.has_destructor⟩, false)

/-! ### Hash-table invariant

Well-formedness of a `map_int_int`, as maintained by every operation: the
bucket array has the default 16 buckets, every entry sits in the chain its
key hashes to, no key occurs twice, and `size` counts the entries. -/

/-- The keys stored in one chain, in chain order. -/
def keysOf (c : Chain) : List Int := c.map Prod.fst

/-- All keys stored in a bucket array, bucket by bucket. -/
def bucketKeys (bs : List Chain) : List Int := (bs.map keysOf).flatten

/-- The keys present in a map (empty for a NULL bucket array). -/
def presentKeys (m : map_int_int) : List Int :=
  match m.buckets with
  | none => []
  | some bs => bucketKeys bs

/-- Every entry sits in the chain its key hashes to (with 16 buckets). -/
abbrev hashOk (bs : List Chain) : Prop :=
  ∀ i < bs.length, ∀ p ∈ bs.getD i [], map_int_int_hash p.1 16 = i

/-- Well-formed bucket array: 16 buckets, hash-consistent, no duplicate
key anywhere. -/
abbrev bucketsWF (bs : List Chain) : Prop :=
  bs.length = 16 ∧ hashOk bs ∧ (bucketKeys bs).Nodup

/-- Well-formed map: either a zero-initialized map (NULL buckets, size 0),
or a well-formed bucket array with `bucket_count = 16` and `size` equal to
the number of stored entries. -/
def MapWF (m : map_int_int) : Prop :=
  match m.buckets with
  | none => m.size = 0
  | some bs =>
    m.bucket_count = 16 ∧ bucketsWF bs ∧ m.size = (bucketKeys bs).length

theorem chainUpdate_fst (k v : Int) (c : Chain) :
    (chainUpdate k v c).1 = chainContainsKey k c := by
  induction c with
  | nil => rfl
  | cons e rest ih =>
    by_cases h : e.1 = k <;> simp [chainUpdate, chainContainsKey, h, ih]

theorem chainUpdate_keys (k v : Int) (c : Chain) :
    keysOf (chainUpdate k v c).2 = keysOf c := by
  induction c with
  | nil => rfl
  | cons e rest ih =>
    by_cases h : e.1 = k
    · simp [chainUpdate, keysOf, h]
    · simp only [chainUpdate, h, if_false]
      simpa [keysOf] using ih

theorem chainRemove_fst (k : Int) (c : Chain) :
    (chainRemove k c).1 = chainContainsKey k c := by
  induction c with
  | nil => rfl
  | cons e rest ih =>
    by_cases h : e.1 = k <;> simp [chainRemove, chainContainsKey, h, ih]

theorem chainRemove_keys (k : Int) (c : Chain) :
    keysOf (chainRemove k c).2 = (keysOf c).erase k := by
  induction c with
  | nil => rfl
  | cons e rest ih =>
    by_cases h : e.1 = k
    · simp [chainRemove, keysOf, h, List.erase_cons]
    · simpa [chainRemove, keysOf, h, List.erase_cons] using ih

theorem chainRemove_sublist (k : Int) (c : Chain) :
    (chainRemove k c).2.Sublist c := by
  induction c with
  | nil => simp [chainRemove]
  | cons e rest ih =>
    by_cases h : e.1 = k
    · simp [chainRemove, h]
    · simpa [chainRemove, h] using ih.cons₂ e

theorem chainContainsKey_iff (k : Int) (c : Chain) :
    chainContainsKey k c = true ↔ k ∈ keysOf c := by
  induction c with
  | nil => simp [chainContainsKey, keysOf]
  | cons e rest ih =>
    by_cases h : e.1 = k <;> simp [chainContainsKey, keysOf, h, ih]
    exact fun he => (h he.symm).elim

theorem chainFind_chainUpdate (k v : Int) (c : Chain)
    (h : chainContainsKey k c = true) :
    chainFind k (chainUpdate k v c).2 = some v := by
  induction c with
  | nil => simp [chainContainsKey] at h
  | cons e rest ih =>
    by_cases he : e.1 = k
    · simp [chainUpdate, chainFind, he]
    · simp [chainContainsKey, he] at h
      simp [chainUpdate, chainFind, he, ih h]

theorem bucketKeys_append (l m : List Chain) :
    bucketKeys (l ++ m) = bucketKeys l ++ bucketKeys m := by
  simp [bucketKeys]

theorem bucketKeys_cons (c : Chain) (bs : List Chain) :
    bucketKeys (c :: bs) = keysOf c ++ bucketKeys bs := by
  simp [bucketKeys]

theorem bucketKeys_set (bs : List Chain) (i : Nat) (h : i < bs.length)
    (c : Chain) :
    bucketKeys (bs.set i c) =
      bucketKeys (bs.take i) ++ keysOf c ++ bucketKeys (bs.drop (i + 1)) := by
  rw [List.set_eq_take_cons_drop _ h, bucketKeys_append, bucketKeys_cons,
    List.append_assoc]

theorem bucketKeys_decomp (bs : List Chain) (i : Nat) (h : i < bs.length) :
    bucketKeys bs =
      bucketKeys (bs.take i) ++ keysOf (bs.getD i []) ++
        bucketKeys (bs.drop (i + 1)) := by
  conv_lhs => rw [← List.take_append_drop i bs]
  rw [List.drop_eq_getElem_cons h, List.getD_eq_getElem _ _ h,
    bucketKeys_append, bucketKeys_cons, List.append_assoc]

theorem getD_set_self (bs : List Chain) (i : Nat) (h : i < bs.length)
    (c : Chain) : (bs.set i c).getD i [] = c := by
  rw [List.getD_eq_getElem _ _ (by simpa using h)]
  simp [List.getElem_set]

theorem getD_set_ne (bs : List Chain) (i j : Nat) (hne : i ≠ j) (c : Chain) :
    (bs.set i c).getD j [] = bs.getD j [] := by
  by_cases hj : j < bs.length
  · rw [List.getD_eq_getElem _ _ (by simpa using hj),
      List.getD_eq_getElem _ _ hj]
    simp [List.getElem_set, hne]
  · rw [List.getD_eq_default _ _ (by simpa using Nat.le_of_not_lt hj),
      List.getD_eq_default _ _ (Nat.le_of_not_lt hj)]

theorem mem_bucketKeys (bs : List Chain) (k : Int) :
    k ∈ bucketKeys bs ↔ ∃ i, ∃ _ : i < bs.length, k ∈ keysOf (bs.getD i []) := by
  constructor
  · intro hk
    rw [bucketKeys, List.mem_flatten] at hk
    obtain ⟨l, hl, hkl⟩ := hk
    rw [List.mem_map] at hl
    obtain ⟨c, hc, rfl⟩ := hl
    rw [List.mem_iff_getElem] at hc
    obtain ⟨i, hi, rfl⟩ := hc
    exact ⟨i, hi, by rwa [List.getD_eq_getElem _ _ hi]⟩
  · rintro ⟨i, hi, hk⟩
    rw [bucketKeys, List.mem_flatten]
    refine ⟨keysOf (bs.getD i []), List.mem_map_of_mem _ ?_, hk⟩
    rw [List.getD_eq_getElem _ _ hi]
    exact List.getElem_mem hi

theorem hashOk_set (bs : List Chain) (i : Nat) (c : Chain) (hbs : hashOk bs)
    (h : i < bs.length) (hc : ∀ p ∈ c, map_int_int_hash p.1 16 = i) :
    hashOk (bs.set i c) := by
  intro j hj p hp
  rw [List.length_set] at hj
  by_cases hij : i = j
  · subst hij
    rw [getD_set_self bs i h c] at hp
    exact hc p hp
  · rw [getD_set_ne bs i j hij c] at hp
    exact hbs j hj p hp

theorem mem_keysOf (c : Chain) (k : Int) :
    k ∈ keysOf c ↔ ∃ p ∈ c, p.1 = k := by
  simp [keysOf]

theorem mapContainsB_mk (bs : List Chain) (sz : Nat) (k : Int) :
    mapContainsB ⟨some bs, 16, sz⟩ k =
      chainContainsKey k (bs.getD (map_int_int_hash k 16) []) := rfl

theorem mapContainsB_iff (m : map_int_int) (hwf : MapWF m) (k : Int) :
    mapContainsB m k = true ↔ k ∈ presentKeys m := by
  obtain ⟨b, bc, sz⟩ := m
  cases b with
  | none => simp [mapContainsB, presentKeys]
  | some bs =>
    obtain ⟨hbc, ⟨hlen, hhash, _⟩, _⟩ := hwf
    subst hbc
    rw [mapContainsB_mk, presentKeys]
    constructor
    · intro h
      rw [chainContainsKey_iff] at h
      rw [mem_bucketKeys]
      exact ⟨map_int_int_hash k 16, by
        rw [hlen]; exact Nat.mod_lt _ (by norm_num), h⟩
    · intro h
      rw [mem_bucketKeys] at h
      obtain ⟨i, hi, hk⟩ := h
      have hp := (mem_keysOf _ k).1 hk
      obtain ⟨p, hp, hpk⟩ := hp
      have := hhash i hi p hp
      rw [hpk] at this
      rw [chainContainsKey_iff, this]
      exact hk

theorem insertIntoBuckets_found (bs : List Chain) (sz : Nat) (k v : Int)
    (hc : chainContainsKey k (bs.getD (map_int_int_hash k 16) []) = true) :
    insertIntoBuckets true bs 16 sz k v =
      (false,
       ⟨some (bs.set (map_int_int_hash k 16)
          (chainUpdate k v (bs.getD (map_int_int_hash k 16) [])).2), 16, sz⟩) := by
  rw [insertIntoBuckets]
  simp only [chainUpdate_fst, hc, if_true]

theorem insertIntoBuckets_new (bs : List Chain) (sz : Nat) (k v : Int)
    (hc : chainContainsKey k (bs.getD (map_int_int_hash k 16) []) = false) :
    insertIntoBuckets true bs 16 sz k v =
      (true,
       ⟨some (bs.set (map_int_int_hash k 16)
          ((k, v) :: bs.getD (map_int_int_hash k 16) [])), 16, sz + 1⟩) := by
  rw [insertIntoBuckets]
  simp only [chainUpdate_fst, hc, Bool.false_eq_true, if_false, if_true]

/-- Inserting an already-present key (allocations succeeding): the map
stays well-formed, the key maps to the new value, every present key stays
present, and `size` is unchanged. -/
theorem insertIntoBuckets_found_spec (bs : List Chain) (sz : Nat) (k v : Int)
    (hwf : bucketsWF bs) (hsz : sz = (bucketKeys bs).length)
    (hc : chainContainsKey k (bs.getD (map_int_int_hash k 16) []) = true) :
    MapWF (insertIntoBuckets true bs 16 sz k v).2 ∧
    mapContainsB (insertIntoBuckets true bs 16 sz k v).2 k = true ∧
    (∀ k', mapContainsB ⟨some bs, 16, sz⟩ k' = true →
      mapContainsB (insertIntoBuckets true bs 16 sz k v).2 k' = true) ∧
    (insertIntoBuckets true bs 16 sz k v).2.size = sz ∧
    map_int_int_get (some (insertIntoBuckets true bs 16 sz k v).2) k = some v := by
  obtain ⟨hlen, hhash, hnodup⟩ := hwf
  have hidx : map_int_int_hash k 16 < bs.length := by
    rw [hlen]; exact Nat.mod_lt _ (by norm_num)
  rw [insertIntoBuckets_found bs sz k v hc]
  set idx := map_int_int_hash k 16 with hidxdef
  set c := bs.getD idx [] with hcdef
  set c2 := (chainUpdate k v c).2 with hc2def
  have hkeys : keysOf c2 = keysOf c := chainUpdate_keys k v c
  have hdecomp := bucketKeys_decomp bs idx hidx
  have hbk : bucketKeys (bs.set idx c2) = bucketKeys bs := by
    rw [bucketKeys_set bs idx hidx, hkeys, ← hcdef] at *
    exact hdecomp.symm
  refine ⟨⟨rfl, ⟨by simp [hlen], ?_, by rw [hbk]; exact hnodup⟩,
    by rw [hbk]; exact hsz⟩, ?_, ?_, rfl, ?_⟩
  · -- hash consistency
    refine hashOk_set bs idx c2 hhash hidx ?_
    intro p hp
    have hpk : p.1 ∈ keysOf c := by
      rw [← hkeys]; exact List.mem_map_of_mem _ hp
    obtain ⟨q, hq, hqk⟩ := (mem_keysOf c p.1).1 hpk
    rw [← hqk]
    exact hhash idx hidx q (hcdef ▸ hq)
  · -- the key is present afterwards
    rw [mapContainsB_mk, ← hidxdef, getD_set_self bs idx hidx,
      chainContainsKey_iff, hkeys]
    exact (chainContainsKey_iff k c).1 hc
  · -- other keys preserved
    intro k' hk'
    rw [mapContainsB_mk] at hk' ⊢
    by_cases hik : idx = map_int_int_hash k' 16
    · rw [← hik] at hk' ⊢
      rw [getD_set_self bs idx hidx, chainContainsKey_iff, hkeys]
      exact (chainContainsKey_iff k' c).1 (hcdef ▸ hk')
    · rwa [getD_set_ne bs idx _ hik]
  · -- the stored value
    simp only [map_int_int_get]
    rw [← hidxdef, getD_set_self bs idx hidx]
    exact chainFind_chainUpdate k v c hc

/-- Inserting a fresh key (allocations succeeding): the map stays
well-formed, the key becomes present and maps to the value, every present
key stays present, and `size` grows by 1. -/
theorem insertIntoBuckets_new_spec (bs : List Chain) (sz : Nat) (k v : Int)
    (hwf : bucketsWF bs) (hsz : sz = (bucketKeys bs).length)
    (hc : chainContainsKey k (bs.getD (map_int_int_hash k 16) []) = false) :
    MapWF (insertIntoBuckets true bs 16 sz k v).2 ∧
    mapContainsB (insertIntoBuckets true bs 16 sz k v).2 k = true ∧
    (∀ k', mapContainsB ⟨some bs, 16, sz⟩ k' = true →
      mapContainsB (insertIntoBuckets true bs 16 sz k v).2 k' = true) ∧
    (insertIntoBuckets true bs 16 sz k v).2.size = sz + 1 ∧
    map_int_int_get (some (insertIntoBuckets true bs 16 sz k v).2) k = some v := by
  obtain ⟨hlen, hhash, hnodup⟩ := hwf
  have hidx : map_int_int_hash k 16 < bs.length := by
    rw [hlen]; exact Nat.mod_lt _ (by norm_num)
  rw [insertIntoBuckets_new bs sz k v hc]
  set idx := map_int_int_hash k 16 with hidxdef
  set c := bs.getD idx [] with hcdef
  have hdecomp := bucketKeys_decomp bs idx hidx
  have hknotin : k ∉ bucketKeys bs := by
    intro hmem
    rw [mem_bucketKeys] at hmem
    obtain ⟨i, hi, hk⟩ := hmem
    obtain ⟨p, hp, hpk⟩ := (mem_keysOf _ _).1 hk
    have hhi := hhash i hi p hp
    rw [hpk, ← hidxdef] at hhi
    rw [← hhi] at hk
    rw [(chainContainsKey_iff k _).2 (hcdef ▸ hk)] at hc
    exact Bool.true_eq_false.mp hc
  have hbk : bucketKeys (bs.set idx ((k, v) :: c)) =
      bucketKeys (bs.take idx) ++ k :: keysOf c ++ bucketKeys (bs.drop (idx + 1)) := by
    rw [bucketKeys_set bs idx hidx]
    simp [keysOf]
  refine ⟨⟨rfl, ⟨by simp [hlen], ?_, ?_⟩, ?_⟩, ?_, ?_, rfl, ?_⟩
  · -- hash consistency
    refine hashOk_set bs idx _ hhash hidx ?_
    intro p hp
    rcases List.mem_cons.1 hp with rfl | hp
    · exact hidxdef.symm
    · have hpk : p.1 ∈ keysOf c := List.mem_map_of_mem _ hp
      obtain ⟨q, hq, hqk⟩ := (mem_keysOf c p.1).1 hpk
      rw [← hqk]
      exact hhash idx hidx q (hcdef ▸ hq)
  · -- no duplicate keys
    rw [hbk, List.append_assoc, List.cons_append, List.nodup_middle,
      ← List.append_assoc, hcdef, ← hdecomp]
    exact List.nodup_cons.2 ⟨hknotin, hnodup⟩
  · -- size counts the entries
    rw [hbk, hsz, hdecomp, hcdef]
    simp only [List.length_append, List.length_cons]
    omega
  · -- the key is present afterwards
    rw [mapContainsB_mk, ← hidxdef, getD_set_self bs idx hidx]
    simp [chainContainsKey]
  · -- other keys preserved
    intro k' hk'
    rw [mapContainsB_mk] at hk' ⊢
    by_cases hik : idx = map_int_int_hash k' 16
    · rw [← hik] at hk' ⊢
      rw [getD_set_self bs idx hidx]
      rw [chainContainsKey_iff] at hk' ⊢
      rw [keysOf, List.map_cons, List.mem_cons]
      right
      exact hcdef ▸ hk'
    · rwa [getD_set_ne bs idx _ hik]
  · -- the stored value
    simp only [map_int_int_get]
    rw [← hidxdef, getD_set_self bs idx hidx]
    simp [chainFind]

theorem getD_replicate_nil (n i : Nat) :
    (List.replicate n ([] : Chain)).getD i [] = [] := by
  by_cases h : i < n
  · rw [List.getD_eq_getElem _ _ (by simpa using h)]
    simp
  · rw [List.getD_eq_default]
    simpa using Nat.le_of_not_lt h

theorem getD_map_nil (bs : List Chain) (i : Nat) :
    ((bs.map fun _ => ([] : Chain)).getD i []) = [] := by
  by_cases h : i < bs.length
  · rw [List.getD_eq_getElem _ _ (by simpa using h)]
    simp
  · rw [List.getD_eq_default]
    simpa using Nat.le_of_not_lt h

theorem bucketKeys_map_nil (bs : List Chain) :
    bucketKeys (bs.map fun _ => ([] : Chain)) = [] := by
  induction bs with
  | nil => rfl
  | cons c rest ih => simpa [bucketKeys_cons, keysOf] using ih

/-- One insert with all allocations succeeding, on a well-formed map:
well-formedness is preserved; the key is present afterwards and maps to
the new value; presence of every key is preserved; the returned flag
reports "inserted" exactly when the key was absent; and `size` is
unchanged on update and incremented by 1 on insert. -/
theorem map_int_int_insert_spec (m : map_int_int) (k v : Int) (hwf : MapWF m) :
    MapWF (map_int_int_insert true m k v).2 ∧
    mapContainsB (map_int_int_insert true m k v).2 k = true ∧
    (∀ k', mapContainsB m k' = true →
      mapContainsB (map_int_int_insert true m k v).2 k' = true) ∧
    (map_int_int_insert true m k v).1 = !mapContainsB m k ∧
    (map_int_int_insert true m k v).2.size =
      (if mapContainsB m k then m.size else m.size + 1) ∧
    map_int_int_get (some (map_int_int_insert true m k v).2) k = some v := by
  obtain ⟨b, bc, sz⟩ := m
  cases b with
  | none =>
    have hsz : sz = 0 := hwf
    subst hsz
    have hempty : bucketsWF (List.replicate 16 ([] : Chain)) := by decide
    have hlen0 : (0 : Nat) = (bucketKeys (List.replicate 16 ([] : Chain))).length := by
      decide
    have hc : chainContainsKey k
        ((List.replicate 16 ([] : Chain)).getD (map_int_int_hash k 16) []) = false := by
      rw [getD_replicate_nil]
      rfl
    have hs := insertIntoBuckets_new_spec (List.replicate 16 []) 0 k v hempty hlen0 hc
    simp only [map_int_int_insert, if_true]
    refine ⟨hs.1, hs.2.1, ?_, ?_, ?_, hs.2.2.2.2⟩
    · intro k' hk'
      exact absurd hk' Bool.false_ne_true
    · rw [insertIntoBuckets_new _ _ _ _ hc]
      rfl
    · rw [hs.2.2.2.1]
      rfl
  | some bs =>
    obtain ⟨hbc, hbwf, hszlen⟩ := hwf
    subst hbc
    simp only [map_int_int_insert]
    by_cases hc : chainContainsKey k (bs.getD (map_int_int_hash k 16) [])
    · have hcb : mapContainsB ⟨some bs, 16, sz⟩ k = true := hc
      have hs := insertIntoBuckets_found_spec bs sz k v hbwf hszlen hc
      refine ⟨hs.1, hs.2.1, hs.2.2.1, ?_, ?_, hs.2.2.2.2⟩
      · rw [insertIntoBuckets_found _ _ _ _ hc, hcb]
        rfl
      · rw [hs.2.2.2.1, hcb]
        simp
    · rw [Bool.not_eq_true] at hc
      have hcb : mapContainsB ⟨some bs, 16, sz⟩ k = false := hc
      have hs := insertIntoBuckets_new_spec bs sz k v hbwf hszlen hc
      refine ⟨hs.1, hs.2.1, hs.2.2.1, ?_, ?_, hs.2.2.2.2⟩
      · rw [insertIntoBuckets_new _ _ _ _ hc, hcb]
        rfl
      · rw [hs.2.2.2.1, hcb]
        simp

/-- One remove on a well-formed map: well-formedness is preserved; the key
is absent afterwards; the presence of every other key is unchanged; the
returned flag reports whether the key was present; and `size` drops by 1
exactly when it was. -/
theorem map_int_int_remove_spec (m : map_int_int) (k : Int) (hwf : MapWF m) :
    MapWF (map_int_int_remove m k).2 ∧
    mapContainsB (map_int_int_remove m k).2 k = false ∧
    (∀ k', k' ≠ k →
      mapContainsB (map_int_int_remove m k).2 k' = mapContainsB m k') ∧
    (map_int_int_remove m k).1 = mapContainsB m k ∧
    (map_int_int_remove m k).2.size =
      (if mapContainsB m k then m.size - 1 else m.size) := by
  obtain ⟨b, bc, sz⟩ := m
  cases b with
  | none =>
    exact ⟨hwf, rfl, fun _ _ => rfl, rfl, rfl⟩
  | some bs =>
    obtain ⟨hbc, ⟨hlen, hhash, hnodup⟩, hszlen⟩ := hwf
    subst hbc
    have hidx : map_int_int_hash k 16 < bs.length := by
      rw [hlen]; exact Nat.mod_lt _ (by norm_num)
    simp only [map_int_int_remove, chainRemove_fst]
    set idx := map_int_int_hash k 16 with hidxdef
    set c := bs.getD idx [] with hcdef
    set c2 := (chainRemove k c).2 with hc2def
    have hkeys : keysOf c2 = (keysOf c).erase k := chainRemove_keys k c
    have hdecomp := bucketKeys_decomp bs idx hidx
    rw [← hcdef] at hdecomp
    have hcnodup : (keysOf c).Nodup := by
      refine List.Nodup.sublist ?_ hnodup
      rw [hdecomp]
      exact ((List.sublist_append_right _ _).trans
        (List.sublist_append_left _ _))
    by_cases hc : chainContainsKey k c
    · simp only [hc, if_true]
      have hkmem : k ∈ keysOf c := (chainContainsKey_iff k c).1 hc
      have hbk : bucketKeys (bs.set idx c2) =
          bucketKeys (bs.take idx) ++ keysOf c2 ++ bucketKeys (bs.drop (idx + 1)) :=
        bucketKeys_set bs idx hidx c2
      have hsub : List.Sublist (bucketKeys (bs.set idx c2)) (bucketKeys bs) := by
        rw [hbk, hdecomp, hkeys]
        exact (((keysOf c).erase_sublist k).append_left _).append_right _
      have hcb : mapContainsB ⟨some bs, 16, sz⟩ k = true := hc
      refine ⟨⟨rfl, ⟨by simp [hlen], ?_, List.Nodup.sublist hsub hnodup⟩, ?_⟩,
        ?_, ?_, hcb.symm, ?_⟩
      · -- hash consistency
        refine hashOk_set bs idx c2 hhash hidx ?_
        intro p hp
        exact hhash idx hidx p (hcdef ▸ (chainRemove_sublist k c).subset hp)
      · -- size counts the entries
        have herase : (keysOf c).length = ((keysOf c).erase k).length + 1 :=
          (List.length_erase_add_one hkmem).symm
        have hsz2 : sz = (bucketKeys bs).length := hszlen
        rw [hdecomp] at hsz2
        show sz - 1 = _
        rw [hbk, hkeys]
        simp only [List.length_append] at hsz2 ⊢
        omega
      · -- the key is absent afterwards
        rw [mapContainsB_mk, ← hidxdef, getD_set_self bs idx hidx]
        refine Bool.eq_false_iff.2 fun habs => ?_
        rw [chainContainsKey_iff, hkeys] at habs
        exact hcnodup.not_mem_erase habs
      · -- other keys unchanged
        intro k' hk'
        rw [mapContainsB_mk, mapContainsB_mk]
        by_cases hik : idx = map_int_int_hash k' 16
        · rw [← hik, getD_set_self bs idx hidx, ← hcdef]
          rw [Bool.eq_iff_iff, chainContainsKey_iff, chainContainsKey_iff,
            hkeys]
          exact List.mem_erase_of_ne hk'
        · rw [getD_set_ne bs idx _ hik]
      · -- size drops by one
        rw [hcb]
        simp
    · simp only [if_neg hc]
      have hcf : mapContainsB ⟨some bs, 16, sz⟩ k = false := Bool.eq_false_iff.2 hc
      exact ⟨⟨rfl, ⟨hlen, hhash, hnodup⟩, hszlen⟩, hcf, fun _ _ => trivial,
        hcf.symm, by rw [hcf]; simp⟩

/-- `clear` on a well-formed map: well-formedness is preserved and every
key is absent afterwards. -/
theorem map_int_int_clear_spec (m : map_int_int) (hwf : MapWF m) :
    MapWF (map_int_int_clear m) ∧
    ∀ k, mapContainsB (map_int_int_clear m) k = false := by
  obtain ⟨b, bc, sz⟩ := m
  cases b with
  | none =>
    exact ⟨hwf, fun _ => rfl⟩
  | some bs =>
    obtain ⟨hbc, ⟨hlen, _, _⟩, _⟩ := hwf
    subst hbc
    simp only [map_int_int_clear]
    refine ⟨⟨rfl, ⟨by simp [hlen], ?_, ?_⟩, ?_⟩, ?_⟩
    · intro i hi p hp
      rw [getD_map_nil] at hp
      cases hp
    · rw [bucketKeys_map_nil]
      exact List.nodup_nil
    · rw [bucketKeys_map_nil]
      rfl
    · intro k
      rw [mapContainsB_mk, getD_map_nil]
      rfl

/-- One mutating hash-table operation of the claims: insert, remove or
clear (with no allocation failure). -/
inductive MapOp where
  | ins (key value : Int)
  | rem (key : Int)
  | clr
deriving DecidableEq, Repr

/-- Apply one operation to a map. -/
def applyOp (m : map_int_int) : MapOp → map_int_int
  | .ins k v => (map_int_int_insert true m k v).2
  | .rem k => (map_int_int_remove m k).2
  | .clr => map_int_int_clear m

/-- Run a sequence of operations left to right. -/
def runOps (m : map_int_int) (ops : List MapOp) : map_int_int :=
  ops.foldl applyOp m

theorem applyOp_wf (m : map_int_int) (op : MapOp) (hwf : MapWF m) :
    MapWF (applyOp m op) := by
  cases op with
  | ins k v => exact (map_int_int_insert_spec m k v hwf).1
  | rem k => exact (map_int_int_remove_spec m k hwf).1
  | clr => exact (map_int_int_clear_spec m hwf).1

theorem runOps_wf (ops : List MapOp) (m : map_int_int) (hwf : MapWF m) :
    MapWF (runOps m ops) := by
  induction ops generalizing m with
  | nil => exact hwf
  | cons op rest ih => exact ih (applyOp m op) (applyOp_wf m op hwf)

theorem MapWF_init : MapWF map_int_int_init := by
  refine ⟨rfl, by decide, by decide⟩

/-- A key stays present through any sequence of operations that neither
removes it nor clears the table. -/
theorem mapContainsB_runOps (post : List MapOp) (k : Int) :
    ∀ m : map_int_int, MapWF m → mapContainsB m k = true →
      MapOp.rem k ∉ post → MapOp.clr ∉ post →
      mapContainsB (runOps m post) k = true := by
  induction post with
  | nil => exact fun m _ hc _ _ => hc
  | cons op rest ih =>
    intro m hwf hc hrem hclr
    rw [List.mem_cons, not_or] at hrem hclr
    have hstep : MapWF (applyOp m op) ∧ mapContainsB (applyOp m op) k = true := by
      cases op with
      | ins k' v' =>
        have hs := map_int_int_insert_spec m k' v' hwf
        exact ⟨hs.1, hs.2.2.1 k hc⟩
      | rem k' =>
        have hkk : k' ≠ k := fun h => hrem.1 (by rw [h])
        have hs := map_int_int_remove_spec m k' hwf
        refine ⟨hs.1, ?_⟩
        show mapContainsB (map_int_int_remove m k').2 k = true
        rw [hs.2.2.1 k hkk.symm]
        exact hc
      | clr => exact absurd rfl hclr.1
    exact ih (applyOp m op) hstep.1 hstep.2 hrem.2 hclr.2

theorem presentKeys_size (m : map_int_int) (hwf : MapWF m) :
    m.size = (presentKeys m).length ∧ (presentKeys m).Nodup := by
  obtain ⟨b, bc, sz⟩ := m
  cases b with
  | none => exact ⟨hwf, List.nodup_nil⟩
  | some bs =>
    obtain ⟨_, ⟨_, _, hnodup⟩, hsz⟩ := hwf
    exact ⟨hsz, hnodup⟩

/-- The doubling loop: starting from a positive capacity, the result is
the first reached power-of-two multiple that fits the request. -/
theorem poolGrowCapacity_aux (fuel : Nat) :
    ∀ cap need, need - cap ≤ fuel → 0 < cap →
      ∃ k, poolGrowCapacity cap need = cap * 2 ^ k ∧
        need ≤ cap * 2 ^ k ∧ ∀ j < k, cap * 2 ^ j < need := by
  induction fuel with
  | zero =>
    intro cap need hle hcap
    rw [poolGrowCapacity, dif_neg (by omega)]
    exact ⟨0, by ring, by omega, by omega⟩
  | succ f ih =>
    intro cap need hle hcap
    by_cases h : cap < need
    · rw [poolGrowCapacity, dif_pos ⟨hcap, h⟩]
      obtain ⟨k, hk1, hk2, hk3⟩ := ih (cap * 2) need (by omega) (by omega)
      refine ⟨k + 1, by rw [hk1]; ring, ?_, ?_⟩
      · calc need ≤ cap * 2 * 2 ^ k := hk2
          _ = cap * 2 ^ (k + 1) := by ring
      · intro j hj
        cases j with
        | zero => simpa using h
        | succ j' =>
          calc cap * 2 ^ (j' + 1) = cap * 2 * 2 ^ j' := by ring
            _ < need := hk3 j' (by omega)
    · rw [poolGrowCapacity, dif_neg (by omega)]
      exact ⟨0, by ring, by omega, by omega⟩

/-- Registering a list of pointers in a fresh scope, in order. -/
def registerAll (ps : List Nat) : mgen_scope_allocator_t :=
  ps.foldl (fun s p => (mgen_scope_register s p).2) mgen_scope_new

theorem registerAll_head (ps : List Nat) :
    ∀ s : mgen_scope_allocator_t, 0 ∉ ps →
      (ps.foldl (fun s p => (mgen_scope_register s p).2) s).head =
        ps.reverse ++ s.head := by
  induction ps with
  | nil => simp
  | cons p rest ih =>
    intro s hnz
    rw [List.mem_cons, not_or] at hnz
    have hp : mgen_scope_register s p = (.MGEN_OK, ⟨p :: s.head, s.count + 1⟩) := by
      rw [mgen_scope_register, if_neg (fun h => hnz.1 h.symm)]
    rw [List.foldl_cons, hp, ih _ hnz.2]
    simp

/-! ### Claims -/

/-- C1: evaluation of `mgen_normalize_python_slice` over a sequence of
length 10.  The full-default slice `{None, None, 1}`, the explicit zero
step, and the `{start:-3, stop:None, step:1}` scenario behave as the claim
states; but the full reverse traversal `{start:-1, stop:None, step:-1}`
yields normalized `start = stop = 9` and length 0 instead of the claimed
length `L = 10`, because the omitted-stop default `-1` is then wrapped to
`seq_len - 1` by the negative-index adjustment. -/
theorem C1_slice_normalize_eval :
    mgen_normalize_python_slice ⟨0, 0, 1, false, false, false⟩ 10 =
      (.MGEN_OK, some ⟨0, 10, 1, 10⟩) ∧
    mgen_normalize_python_slice ⟨2, 5, 0, true, true, true⟩ 10 =
      (.MGEN_ERROR_VALUE, none) ∧
    mgen_normalize_python_slice ⟨-3, 0, 1, true, false, true⟩ 10 =
      (.MGEN_OK, some ⟨7, 10, 1, 3⟩) ∧
    mgen_normalize_python_slice ⟨-1, 0, -1, true, false, true⟩ 10 =
      (.MGEN_OK, some ⟨9, 9, 1, 0⟩) := by decide

/-- C2: `mgen_dyn_array_append` applies the `+ 1` floor to the 1.5x growth
(full array of capacity 1 grows to capacity 2), but `mgen_dyn_array_insert`
computes `capacity + capacity/2` without the floor: inserting into a full
array of capacity 1 (or 0) leaves the capacity unchanged while still
storing the element, so the claimed strict capacity increase fails and the
stored count exceeds the capacity.  (`vec_int_grow`, also cited by the
claim, doubles the capacity — 4 becomes 8, not `4 + 4/2 = 6`.) -/
theorem C2_growth_floor_eval :
    (mgen_dyn_array_append true ⟨[42], 1⟩ 7).2.capacity = 2 ∧
    mgen_dyn_array_insert true ⟨[42], 1⟩ 1 7 = (.MGEN_OK, ⟨[42, 7], 1⟩) ∧
    mgen_dyn_array_insert true ⟨[], 0⟩ 0 7 = (.MGEN_OK, ⟨[7], 0⟩) ∧
    (vec_int_grow true ⟨[1, 2, 3, 4], 4⟩ .MGEN_OK).1.capacity = 8 := by decide

/-- C3: on reallocation failure `mgen_dyn_array_append` / `insert` /
`reserve` return a MemoryError with the array untouched, but
`vec_int_push` ignores the failure of `vec_int_grow`: it sets the
MemoryError yet still appends and increments `size` past the unchanged
capacity (9 elements against capacity 8), so the vector is not left in its
prior state. -/
theorem C3_alloc_failure_eval :
    vec_int_push false ⟨[1, 2, 3, 4, 5, 6, 7, 8], 8⟩ 9 .MGEN_OK =
      (⟨[1, 2, 3, 4, 5, 6, 7, 8, 9], 8⟩, .MGEN_ERROR_MEMORY) ∧
    mgen_dyn_array_append false ⟨[1], 1⟩ 5 = (.MGEN_ERROR_MEMORY, ⟨[1], 1⟩) ∧
    mgen_dyn_array_insert false ⟨[1, 2], 2⟩ 0 5 =
      (.MGEN_ERROR_MEMORY, ⟨[1, 2], 2⟩) ∧
    mgen_dyn_array_reserve false ⟨[1], 1⟩ 4 =
      (.MGEN_ERROR_MEMORY, ⟨[1], 1⟩) := by decide

/-- C7: for a cell built with a destructor, `new` then `release` invokes
the destructor exactly at that release (and frees the cell);
`new`, `retain`, `release`, `release` invokes it exactly once, at the
second release — the first release only drops the count back to 1. -/
theorem C7_refcount_destructor :
    mgen_refcounted_release (some (mgen_refcounted_new true)) = (none, true) ∧
    (mgen_refcounted_release
        (mgen_refcounted_retain (some (mgen_refcounted_new true)))).2 = false ∧
    (mgen_refcounted_release
        (mgen_refcounted_retain (some (mgen_refcounted_new true)))).1 =
      some ⟨1, true⟩ ∧
    mgen_refcounted_release
        (mgen_refcounted_release
          (mgen_refcounted_retain (some (mgen_refcounted_new true)))).1 =
      (none, true) := by decide

/-- C9: `mgen_realloc` with `new_size = 0` frees a non-NULL pointer and
returns NULL with the error-context code exactly as it was before the
call — so this NULL return is not by itself a failure; by contrast a
genuinely failed reallocation records a MemoryError. -/
theorem C9_realloc_zero (allocOk : Bool) (ptr : Option Nat) (e : mgen_error_t) :
    (mgen_realloc allocOk ptr 0 e).ret = none ∧
    (mgen_realloc allocOk ptr 0 e).err = e ∧
    (mgen_realloc allocOk ptr 0 e).freedOld = ptr.isSome ∧
    (mgen_realloc false ptr 1 e).err = .MGEN_ERROR_MEMORY := by
  cases ptr <;> simp [mgen_realloc, mgen_free]

/-- C10: every query on a NULL container returns the empty-container
answer (`size`/`capacity` 0, `empty` true, `contains` false) and leaves
the error-context code exactly as it was. -/
theorem C10_null_queries (e : mgen_error_t) (k x : Int) :
    vec_int_size none e = (0, e) ∧
    vec_int_capacity none e = (0, e) ∧
    vec_int_empty none e = (true, e) ∧
    map_int_int_size none e = (0, e) ∧
    map_int_int_empty none e = (true, e) ∧
    map_int_int_contains none k e = (false, e) ∧
    mgen_dyn_array_size none e = (0, e) ∧
    mgen_dyn_array_capacity none e = (0, e) ∧
    mgen_dyn_array_empty none e = (true, e) ∧
    mgen_dyn_array_contains none x e = (false, e) :=
  ⟨rfl, rfl, rfl, rfl, rfl, rfl, rfl, rfl, rfl, rfl⟩

/-- C4: over every sequence of insert/remove/clear operations from a fresh
map (no allocation failure), `size` equals the number of distinct keys for
which `contains` is true (the present keys, pairwise distinct, with
`contains` holding exactly for them); and a key once inserted stays
`contains`-true through any further operations that neither remove that
key nor clear the table. -/
theorem C4_hash_table_invariant (ops pre post : List MapOp) (k v k' : Int)
    (e : mgen_error_t)
    (hrem : MapOp.rem k ∉ post) (hclr : MapOp.clr ∉ post) :
    ((map_int_int_size (some (runOps map_int_int_init ops)) e).1 =
        (presentKeys (runOps map_int_int_init ops)).length ∧
      (presentKeys (runOps map_int_int_init ops)).Nodup ∧
      ((map_int_int_contains (some (runOps map_int_int_init ops)) k' e).1 = true ↔
        k' ∈ presentKeys (runOps map_int_int_init ops))) ∧
    (map_int_int_contains
        (some (runOps map_int_int_init (pre ++ MapOp.ins k v :: post)))
        k e).1 = true := by
  have hwf := runOps_wf ops map_int_int_init MapWF_init
  have hps := presentKeys_size _ hwf
  refine ⟨⟨hps.1, hps.2, mapContainsB_iff _ hwf k'⟩, ?_⟩
  show mapContainsB (runOps map_int_int_init (pre ++ MapOp.ins k v :: post)) k = true
  rw [runOps, List.foldl_append, List.foldl_cons]
  have hwf1 := runOps_wf pre map_int_int_init MapWF_init
  have hs := map_int_int_insert_spec (runOps map_int_int_init pre) k v hwf1
  exact mapContainsB_runOps post k _ hs.1 hs.2.1 hrem hclr

/-- Witness for C4 at a concrete operation sequence. -/
theorem C4_hash_table_invariant_witness :
    ((map_int_int_size (some (runOps map_int_int_init [MapOp.ins 2 5])) .MGEN_OK).1 =
        (presentKeys (runOps map_int_int_init [MapOp.ins 2 5])).length ∧
      (presentKeys (runOps map_int_int_init [MapOp.ins 2 5])).Nodup ∧
      ((map_int_int_contains (some (runOps map_int_int_init [MapOp.ins 2 5]))
          2 .MGEN_OK).1 = true ↔
        2 ∈ presentKeys (runOps map_int_int_init [MapOp.ins 2 5]))) ∧
    (map_int_int_contains
        (some (runOps map_int_int_init ([] ++ MapOp.ins 1 7 :: [MapOp.rem 2])))
        1 .MGEN_OK).1 = true :=
  C4_hash_table_invariant [MapOp.ins 2 5] [] [MapOp.rem 2] 1 7 2 .MGEN_OK
    (by decide) (by decide)

/-- C5: on a well-formed map (no allocation failure), inserting a present
key returns the "updated" flag (`false`), stores the new value and leaves
`size` unchanged; inserting an absent key returns the "inserted" flag
(`true`), stores the value and increments `size` by exactly 1. -/
theorem C5_insert_update (m : map_int_int) (k v : Int) (e : mgen_error_t)
    (hwf : MapWF m) :
    ((map_int_int_contains (some m) k e).1 = true →
      (map_int_int_insert true m k v).1 = false ∧
      (map_int_int_size (some (map_int_int_insert true m k v).2) e).1 =
        (map_int_int_size (some m) e).1 ∧
      map_int_int_get (some (map_int_int_insert true m k v).2) k = some v) ∧
    ((map_int_int_contains (some m) k e).1 = false →
      (map_int_int_insert true m k v).1 = true ∧
      (map_int_int_size (some (map_int_int_insert true m k v).2) e).1 =
        (map_int_int_size (some m) e).1 + 1 ∧
      map_int_int_get (some (map_int_int_insert true m k v).2) k = some v) := by
  have hs := map_int_int_insert_spec m k v hwf
  constructor
  · intro hc
    have hcb : mapContainsB m k = true := hc
    refine ⟨by rw [hs.2.2.2.1, hcb]; rfl, ?_, hs.2.2.2.2.2⟩
    show (map_int_int_insert true m k v).2.size = m.size
    rw [hs.2.2.2.2.1, hcb]
    simp
  · intro hc
    have hcb : mapContainsB m k = false := hc
    refine ⟨by rw [hs.2.2.2.1, hcb]; rfl, ?_, hs.2.2.2.2.2⟩
    show (map_int_int_insert true m k v).2.size = m.size + 1
    rw [hs.2.2.2.2.1, hcb]
    simp

/-- Witness for C5 at the fresh map and key 1. -/
theorem C5_insert_update_witness :
    ((map_int_int_contains (some map_int_int_init) 1 .MGEN_OK).1 = true →
      (map_int_int_insert true map_int_int_init 1 10).1 = false ∧
      (map_int_int_size (some (map_int_int_insert true map_int_int_init 1 10).2)
          .MGEN_OK).1 =
        (map_int_int_size (some map_int_int_init) .MGEN_OK).1 ∧
      map_int_int_get (some (map_int_int_insert true map_int_int_init 1 10).2) 1 =
        some 10) ∧
    ((map_int_int_contains (some map_int_int_init) 1 .MGEN_OK).1 = false →
      (map_int_int_insert true map_int_int_init 1 10).1 = true ∧
      (map_int_int_size (some (map_int_int_insert true map_int_int_init 1 10).2)
          .MGEN_OK).1 =
        (map_int_int_size (some map_int_int_init) .MGEN_OK).1 + 1 ∧
      map_int_int_get (some (map_int_int_insert true map_int_int_init 1 10).2) 1 =
        some 10) :=
  C5_insert_update map_int_int_init 1 10 .MGEN_OK MapWF_init

/-- C6: registering any number of distinct non-NULL pointers in a fresh
scope and invoking the scope's single release point releases exactly the
registered pointers — as many release calls as registrations, each
registered pointer exactly once, and nothing else. -/
theorem C6_scope_release (ps : List Nat) (hnodup : ps.Nodup) (hnz : 0 ∉ ps) :
    mgen_scope_free (registerAll ps) = ps.reverse ∧
    (mgen_scope_free (registerAll ps)).length = ps.length ∧
    (∀ p ∈ ps, (mgen_scope_free (registerAll ps)).count p = 1) ∧
    (∀ p, p ∉ ps → (mgen_scope_free (registerAll ps)).count p = 0) := by
  have h : mgen_scope_free (registerAll ps) = ps.reverse := by
    show (registerAll ps).head = ps.reverse
    rw [registerAll, registerAll_head ps mgen_scope_new hnz]
    simp [mgen_scope_new]
  refine ⟨h, by rw [h]; simp, ?_, ?_⟩
  · intro p hp
    rw [h, List.count_reverse]
    exact List.count_eq_one_of_mem hnodup hp
  · intro p hp
    rw [h, List.count_reverse]
    exact List.count_eq_zero.2 hp

/-- Witness for C6 with three registered pointers. -/
theorem C6_scope_release_witness :
    mgen_scope_free (registerAll [1, 2, 3]) = [1, 2, 3].reverse ∧
    (mgen_scope_free (registerAll [1, 2, 3])).length = [1, 2, 3].length ∧
    (∀ p ∈ [1, 2, 3], (mgen_scope_free (registerAll [1, 2, 3])).count p = 1) ∧
    (∀ p, p ∉ [1, 2, 3] → (mgen_scope_free (registerAll [1, 2, 3])).count p = 0) :=
  C6_scope_release [1, 2, 3] (by decide) (by decide)

/-- C8: `mgen_memory_pool_reset` rewinds `used` to 0 leaving the storage
block and its capacity untouched; and when a request exceeds the remaining
room, `mgen_memory_pool_alloc` grows the capacity by repeated doubling —
the new capacity is `capacity * 2^k` for the first `k ≥ 1` that fits the
aligned request (every earlier doubling still falls short). -/
theorem C8_pool_reset_and_grow (pool : mgen_memory_pool_t) (sz : Nat)
    (hcap : 0 < pool.capacity)
    (hexceeds : pool.capacity < pool.used + mgen_pool_align sz) :
    (mgen_memory_pool_reset pool).used = 0 ∧
    (mgen_memory_pool_reset pool).capacity = pool.capacity ∧
    (mgen_memory_pool_reset pool).data = pool.data ∧
    ∃ k, 1 ≤ k ∧
      (mgen_memory_pool_alloc true pool sz).1.capacity = pool.capacity * 2 ^ k ∧
      pool.used + mgen_pool_align sz ≤ pool.capacity * 2 ^ k ∧
      (∀ j, 1 ≤ j → j < k →
        pool.capacity * 2 ^ j < pool.used + mgen_pool_align sz) ∧
      (mgen_memory_pool_alloc true pool sz).1.used =
        pool.used + mgen_pool_align sz := by
  refine ⟨rfl, rfl, rfl, ?_⟩
  obtain ⟨k, hk1, hk2, hk3⟩ :=
    poolGrowCapacity_aux (pool.used + mgen_pool_align sz) (pool.capacity * 2)
      (pool.used + mgen_pool_align sz) (by omega) (by omega)
  have halloc : mgen_memory_pool_alloc true pool sz =
      ({ pool with
          capacity :=
            poolGrowCapacity (pool.capacity * 2) (pool.used + mgen_pool_align sz),
          used := pool.used + mgen_pool_align sz,
          size := pool.size + 1 }, true) := by
    rw [mgen_memory_pool_alloc, if_pos hexceeds]
    simp
  refine ⟨k + 1, by omega, ?_, ?_, ?_, by rw [halloc]⟩
  · rw [halloc]
    show poolGrowCapacity _ _ = _
    rw [hk1]
    ring
  · calc pool.used + mgen_pool_align sz ≤ pool.capacity * 2 * 2 ^ k := hk2
      _ = pool.capacity * 2 ^ (k + 1) := by ring
  · intro j hj1 hjk
    obtain ⟨j', rfl⟩ : ∃ j', j = j' + 1 := ⟨j - 1, by omega⟩
    calc pool.capacity * 2 ^ (j' + 1) = pool.capacity * 2 * 2 ^ j' := by ring
      _ < pool.used + mgen_pool_align sz := hk3 j' (by omega)

/-- Witness for C8: a pool of capacity 16 with 16 bytes used, asked for 24
more bytes, doubles twice to capacity 64. -/
theorem C8_pool_reset_and_grow_witness :
    (mgen_memory_pool_reset ⟨0, 0, 16, 16⟩).used = 0 ∧
    (mgen_memory_pool_reset ⟨0, 0, 16, 16⟩).capacity =
      (⟨0, 0, 16, 16⟩ : mgen_memory_pool_t).capacity ∧
    (mgen_memory_pool_reset ⟨0, 0, 16, 16⟩).data =
      (⟨0, 0, 16, 16⟩ : mgen_memory_pool_t).data ∧
    ∃ k, 1 ≤ k ∧
      (mgen_memory_pool_alloc true ⟨0, 0, 16, 16⟩ 24).1.capacity = 16 * 2 ^ k ∧
      16 + mgen_pool_align 24 ≤ 16 * 2 ^ k ∧
      (∀ j, 1 ≤ j → j < k → 16 * 2 ^ j < 16 + mgen_pool_align 24) ∧
      (mgen_memory_pool_alloc true ⟨0, 0, 16, 16⟩ 24).1.used =
        16 + mgen_pool_align 24 :=
  C8_pool_reset_and_grow ⟨0, 0, 16, 16⟩ 24 (by decide) (by decide)
